import Mathlib

/-!
Shallow embedding of the persistent result cache of `xhinobi-rs` (`src/cache.rs`):
the entry model, index maintenance, the three-bound eviction engine
(`cleanup_cache`), the reconciliation sweep, and the save / most-recent-load /
clear operations.  Timestamps (`chrono::DateTime<Utc>`) are modelled as `Int`
nanoseconds since the epoch; the filesystem is modelled as an association list
from file names to stored JSON values; `serde_json` serialization is modelled
at the JSON-value level by an explicit `Json` inductive with an encoder and a
decoder for `CacheEntry`.
-/

namespace Xhinobi

/-- Nanoseconds per second (timestamp granularity of `chrono`). -/
def nsPerSecond : Int := 1000000000

/-- Nanoseconds per day, used by `chrono::Duration::days`. -/
def nsPerDay : Int := 86400 * nsPerSecond

/-- `MAX_CACHE_ENTRIES` from `cache.rs`. -/
def MAX_CACHE_ENTRIES : Nat := 50

/-- `MAX_CACHE_SIZE_MB` from `cache.rs`. -/
def MAX_CACHE_SIZE_MB : Nat := 100

/-- `MAX_CACHE_AGE_DAYS` from `cache.rs`. -/
def MAX_CACHE_AGE_DAYS : Int := 90

/-- The total byte budget `MAX_CACHE_SIZE_MB * 1024 * 1024` from `cleanup_cache`. -/
def maxSizeBytes : Nat := MAX_CACHE_SIZE_MB * 1024 * 1024

/-- The full cache record persisted one-per-file (`CacheEntry` in `cache.rs`). -/
structure CacheEntry where
  timestamp : Int
  content : String
  token_count : Nat
  token_counter : Option String
  file_size : Nat
  source_file_count : Nat
  args_used : String
  working_dir : String
deriving DecidableEq

/-- The lightweight index record (`CacheIndexEntry` in `cache.rs`). -/
structure CacheIndexEntry where
  filename : String
  timestamp : Int
  token_count : Nat
  token_counter : Option String
  file_size : Nat
  source_file_count : Nat
  args_used : String
  working_dir : String
deriving DecidableEq

/-- `CacheIndex` in `cache.rs` is a record holding one field `entries`;
we identify it with that list for the embedding. -/
abbrev CacheIndex := List CacheIndexEntry

/-- JSON values, the codomain of `serde_json` serialization as modelled here. -/
inductive Json where
  | null : Json
  | num : Int → Json
  | str : String → Json
  | obj : List (String × Json) → Json

/-- Serialization of an optional string field (`Option<String>` in serde:
`None` becomes JSON null). -/
def encodeOptStr : Option String → Json
  | some s => Json.str s
  | none => Json.null

/-- Serialization of a `CacheEntry` as done by `serde_json::to_string` in
`save_to_cache`, modelled at the JSON-value level with serde's field order. -/
def encodeCacheEntry (e : CacheEntry) : Json :=
  Json.obj [("timestamp", Json.num e.timestamp), ("content", Json.str e.content),
    ("token_count", Json.num e.token_count), ("token_counter", encodeOptStr e.token_counter),
    ("file_size", Json.num e.file_size), ("source_file_count", Json.num e.source_file_count),
    ("args_used", Json.str e.args_used), ("working_dir", Json.str e.working_dir)]

/-- Read an integer JSON field that deserializes into a `usize`. -/
def getNat (fields : List (String × Json)) (key : String) : Option Nat :=
  match fields.lookup key with
  | some (Json.num (Int.ofNat n)) => some n
  | _ => none

/-- Read a JSON field holding a timestamp (modelled as a raw integer). -/
def getNum (fields : List (String × Json)) (key : String) : Option Int :=
  match fields.lookup key with
  | some (Json.num n) => some n
  | _ => none

/-- Read a string JSON field. -/
def getStr (fields : List (String × Json)) (key : String) : Option String :=
  match fields.lookup key with
  | some (Json.str s) => some s
  | _ => none

/-- Read an `Option<String>` field carrying `#[serde(default)]`: a missing
field or JSON null both decode to `none`. -/
def getOptStr (fields : List (String × Json)) (key : String) : Option (Option String) :=
  match fields.lookup key with
  | some (Json.str s) => some (some s)
  | some Json.null => some none
  | none => some none
  | _ => none

/-- Deserialization of a `CacheEntry` as done by `serde_json::from_str` in
`load_most_recent_cache`, modelled at the JSON-value level. -/
def decodeCacheEntry : Json → Option CacheEntry
  | Json.obj fields =>
    match getNum fields "timestamp", getStr fields "content", getNat fields "token_count",
        getOptStr fields "token_counter", getNat fields "file_size",
        getNat fields "source_file_count", getStr fields "args_used",
        getStr fields "working_dir" with
    | some t, some c, some tc, some tk, some fs, some sfc, some au, some wd =>
      some ⟨t, c, tc, tk, fs, sfc, au, wd⟩
    | _, _, _, _, _, _, _, _ => none
  | _ => none

/-- The ascending key order of `index.entries.sort_by_key(|e| e.timestamp)`. -/
def tsLE (a b : CacheIndexEntry) : Prop := a.timestamp ≤ b.timestamp

/-- The descending key order of
`index.entries.sort_by_key(|e| std::cmp::Reverse(e.timestamp))`. -/
def tsGE (a b : CacheIndexEntry) : Prop := b.timestamp ≤ a.timestamp

instance : DecidableRel tsLE := fun a b => Int.decLe a.timestamp b.timestamp

instance : DecidableRel tsGE := fun a b => Int.decLe b.timestamp a.timestamp

/-- `index.entries.sort_by_key(|e| e.timestamp)`: a stable ascending sort,
modelled by stable insertion sort (extensionally equal to Rust's stable
`sort_by_key`). -/
def sortByTimestampAsc (es : List CacheIndexEntry) : List CacheIndexEntry :=
  es.insertionSort tsLE

/-- `index.entries.sort_by_key(|e| std::cmp::Reverse(e.timestamp))`: a stable
descending sort. -/
def sortByTimestampDesc (es : List CacheIndexEntry) : List CacheIndexEntry :=
  es.insertionSort tsGE

/-- The age bound of `cleanup_cache`:
`index.entries.retain(|e| e.timestamp > cutoff_date)` where
`cutoff_date = Utc::now() - Duration::days(MAX_CACHE_AGE_DAYS)`. -/
def agePass (now : Int) (es : List CacheIndexEntry) : List CacheIndexEntry :=
  es.filter (fun e => decide (now - MAX_CACHE_AGE_DAYS * nsPerDay < e.timestamp))

/-- The count bound of `cleanup_cache`: when the index holds more than
`MAX_CACHE_ENTRIES` entries it is sorted ascending by timestamp, truncated to
`MAX_CACHE_ENTRIES` (keeping the first, i.e. oldest, elements), then re-sorted
descending. -/
def countPass (es : List CacheIndexEntry) : List CacheIndexEntry :=
  if MAX_CACHE_ENTRIES < es.length then
    sortByTimestampDesc ((sortByTimestampAsc es).take MAX_CACHE_ENTRIES)
  else es

/-- Sum of the stored `file_size` fields, as computed by
`index.entries.iter().map(|e| e.file_size as u64).sum()`. -/
def sumSizes (es : List CacheIndexEntry) : Nat :=
  (es.map (fun e => e.file_size)).sum

/-- The `while total_size > max_size_bytes && !index.entries.is_empty()` loop
of the size bound: repeatedly drop the first (oldest) entry, subtracting its
stored size from the running total, and record its filename for deletion.
Returns the surviving entries and the deleted filenames in deletion order. -/
def sizeLoopB (budget : Nat) (total : Nat) : List CacheIndexEntry → List CacheIndexEntry × List String
  | [] => ([], [])
  | oldest :: rest =>
    if budget < total then
      let r := sizeLoopB budget (total - oldest.file_size) rest
      (r.1, oldest.filename :: r.2)
    else (oldest :: rest, [])

/-- The size bound of `cleanup_cache`, parameterized by the byte budget: if the
summed `file_size` exceeds the budget, sort ascending by timestamp, run the
removal loop, and re-sort the survivors descending.  Also returns the
filenames whose payload files the loop deleted. -/
def sizePassB (budget : Nat) (es : List CacheIndexEntry) : List CacheIndexEntry × List String :=
  let total := sumSizes es
  if budget < total then
    let r := sizeLoopB budget total (sortByTimestampAsc es)
    (sortByTimestampDesc r.1, r.2)
  else (es, [])

/-- The three eviction bounds of `cleanup_cache` applied to the index in their
fixed order (age, count, size); returns the final index together with the
filenames deleted by the size pass. -/
def cleanupIndexOnly (now : Int) (index : CacheIndex) : CacheIndex × List String :=
  let i1 := agePass now index
  let i2 := countPass i1
  sizePassB maxSizeBytes i2

/-- Rust's `str::ends_with`, computed on the character lists of the two
strings (equivalent to the byte-suffix test for the names involved). -/
def endsWithStr (name pat : String) : Bool :=
  pat.data.isSuffixOf name.data

/-- The keep-condition of the reconciliation sweep: a directory entry survives
unless its name ends in `.cache` and is absent from the surviving index. -/
def sweepKeep (survivors : List CacheIndexEntry) (name : String) : Bool :=
  !(endsWithStr name ".cache" && !(survivors.any (fun e => e.filename == name)))

/-- The reconciliation sweep of `cleanup_cache` on a directory listing. -/
def sweepFiles (survivors : List CacheIndexEntry) (files : List String) : List String :=
  files.filter (fun f => sweepKeep survivors f)

/-- A file name survives `cleanup_cache` iff it was not deleted by the size
pass and is not removed by the reconciliation sweep. -/
def keepFile (survivors : List CacheIndexEntry) (deleted : List String) (name : String) : Bool :=
  !(deleted.contains name) && sweepKeep survivors name

/-- `cleanup_cache` acting on the index and the storage-directory listing:
the three bounds on the index, the size pass's file deletions, then the
reconciliation sweep; the final index is persisted. -/
def cleanupCache (now : Int) (index : CacheIndex) (files : List String) :
    CacheIndex × List String :=
  let r := cleanupIndexOnly now index
  (r.1, files.filter (fun f => keepFile r.1 r.2 f))

/-- The state of the `sessions` storage directory: the payload files (name ↦
stored JSON value) and the parsed content of `cache_index.json`. -/
structure CacheState where
  files : List (String × Json)
  index : CacheIndex

/-- `cleanup_cache` acting on a `CacheState` (payload files keep their stored
contents; deletions remove the whole binding). -/
def cleanupState (now : Int) (st : CacheState) : CacheState :=
  let r := cleanupIndexOnly now st.index
  ⟨st.files.filter (fun kv => keepFile r.1 r.2 kv.1), r.1⟩

/-- The inputs of `save_to_cache` other than the clock and working directory. -/
structure SaveInput where
  content : String
  source_file_count : Nat
  args_used : String
  token_count : Nat
  token_counter : Option String

/-- The timestamped payload filename
`format!("{}.cache", timestamp.format("%Y-%m-%d_%H-%M-%S"))`: an injective
rendering of the timestamp truncated to whole seconds, plus the suffix. -/
def filenameFor (ts : Int) : String := toString (ts / nsPerSecond) ++ ".cache"

/-- The `CacheEntry` constructed by `save_to_cache`; `file_size` is the byte
length of the content (`content.len()` in Rust). -/
def mkCacheEntry (now : Int) (input : SaveInput) (working_dir : String) : CacheEntry :=
  ⟨now, input.content, input.token_count, input.token_counter,
    input.content.utf8ByteSize, input.source_file_count, input.args_used, working_dir⟩

/-- The lightweight projection built by `update_cache_index`. -/
def toIndexEntry (e : CacheEntry) (filename : String) : CacheIndexEntry :=
  ⟨filename, e.timestamp, e.token_count, e.token_counter, e.file_size,
    e.source_file_count, e.args_used, e.working_dir⟩

/-- `fs::write`: create or silently overwrite the file with the given name. -/
def writeFile (files : List (String × Json)) (name : String) (j : Json) :
    List (String × Json) :=
  (name, j) :: files.filter (fun kv => kv.1 != name)

/-- `update_cache_index`: append the lightweight record at the end of the
loaded index. -/
def updateCacheIndex (index : CacheIndex) (e : CacheEntry) (filename : String) : CacheIndex :=
  index ++ [toIndexEntry e filename]

/-- `save_to_cache`: write the serialized entry to its timestamped file,
append its projection to the index, then run `cleanup_cache`. -/
def saveToCache (now : Int) (input : SaveInput) (working_dir : String)
    (st : CacheState) : CacheState :=
  let filename := filenameFor now
  let entry := mkCacheEntry now input working_dir
  let files := writeFile st.files filename (encodeCacheEntry entry)
  let index := updateCacheIndex st.index entry filename
  cleanupState now ⟨files, index⟩

/-- The failure kinds of the read paths. -/
inductive CacheError where
  | emptyCache : CacheError
  | missingPayload : CacheError
deriving DecidableEq

/-- Read and parse one payload file
(`fs::read_to_string` + `serde_json::from_str` in `load_most_recent_cache`). -/
def loadPayload (files : List (String × Json)) (name : String) :
    Except CacheError CacheEntry :=
  match (files.lookup name).bind decodeCacheEntry with
  | some e => Except.ok e
  | none => Except.error CacheError.missingPayload

/-- One step of Rust's `max_by_key` scan: a later element replaces the
current maximum when its key is greater or equal (so of several equally
maximum elements the last one wins, as `max_by_key` documents). -/
def maxStep (acc : Option CacheIndexEntry) (e : CacheIndexEntry) : Option CacheIndexEntry :=
  match acc with
  | none => some e
  | some m => if m.timestamp ≤ e.timestamp then some e else some m

/-- `index.entries.iter().max_by_key(|e| e.timestamp)`. -/
def maxByTimestamp (es : List CacheIndexEntry) : Option CacheIndexEntry :=
  es.foldl maxStep none

/-- `load_most_recent_cache`: fail on an empty index, otherwise load the
payload file of the entry with the maximum timestamp. -/
def loadMostRecent (st : CacheState) : Except CacheError CacheEntry :=
  match maxByTimestamp st.index with
  | none => Except.error CacheError.emptyCache
  | some m => loadPayload st.files m.filename

/-- `get_cache_dir` as seen by the `sessions` directory: `fs::create_dir_all`
creates the directory (empty) when it is missing.  `none` models a
non-existing directory, `some names` an existing one with the given listing. -/
def getCacheDirFs (sessions : Option (List String)) : Option (List String) :=
  match sessions with
  | none => some []
  | some d => some d

/-- `clear_cache`: resolve the directory (creating it if missing), then, when
it exists, remove it wholesale and recreate it empty. -/
def clearCache (sessions : Option (List String)) : Option (List String) :=
  match getCacheDirFs sessions with
  | some _ => some []
  | none => none

/-! ### Concrete states used by the counterexamples and bug evaluations -/

/-- A save with empty content and trivial metadata. -/
def emptySaveInput : SaveInput := ⟨"", 0, "", 0, none⟩

/-- `n` consecutive saves of `emptySaveInput`, one second apart, starting from
the epoch on an empty cache: timestamps are strictly increasing. -/
def doSaves (n : Nat) : CacheState :=
  (List.range n).foldl
    (fun st i => saveToCache ((i : Int) * nsPerSecond) emptySaveInput "" st)
    ⟨[], []⟩

/-- The state after `MAX_CACHE_ENTRIES + 1 = 51` saves with strictly
increasing timestamps. -/
def finalState51 : CacheState := doSaves 51

/-- 51 index entries with strictly increasing timestamps (one second apart)
and zero sizes, in append order. -/
def fiftyOneEntries : List CacheIndexEntry :=
  (List.range 51).map
    (fun i => ⟨toString i ++ ".cache", (i : Int) * nsPerSecond, 0, none, 0, 0, "", ""⟩)

/-- The 10-byte entry of the size-bound test, saved first (oldest). -/
def entry10 : CacheIndexEntry := ⟨"a.cache", 1 * nsPerSecond, 0, none, 10, 0, "", ""⟩

/-- The 20-byte entry of the size-bound test, saved second. -/
def entry20 : CacheIndexEntry := ⟨"b.cache", 2 * nsPerSecond, 0, none, 20, 0, "", ""⟩

/-- The 70-byte entry of the size-bound test, saved third (newest). -/
def entry70 : CacheIndexEntry := ⟨"c.cache", 3 * nsPerSecond, 0, none, 70, 0, "", ""⟩

/-- Three entries of sizes 10, 20, 70 in save (append) order. -/
def threeEntries : List CacheIndexEntry := [entry10, entry20, entry70]

/-- A clock instant exactly `MAX_CACHE_AGE_DAYS` after the epoch, so the
retention cutoff is exactly the epoch. -/
def nowAt90Days : Int := MAX_CACHE_AGE_DAYS * nsPerDay

/-- An entry stamped exactly at the retention cutoff for `nowAt90Days`. -/
def epochEntry : CacheIndexEntry := ⟨"e.cache", 0, 0, none, 0, 0, "", ""⟩

/-- An entry one nanosecond newer than the retention cutoff for
`nowAt90Days`. -/
def freshEntry : CacheIndexEntry := ⟨"f.cache", 1, 0, none, 0, 0, "", ""⟩

/-- An over-budget entry whose filename collides with `smallEntryDup`
(two saves within the same second produce the same filename). -/
def bigEntry : CacheIndexEntry :=
  ⟨"dup.cache", 1 * nsPerSecond, 0, none, maxSizeBytes + 1, 0, "", ""⟩

/-- A newer zero-size entry sharing `bigEntry`'s filename. -/
def smallEntryDup : CacheIndexEntry := ⟨"dup.cache", 2 * nsPerSecond, 0, none, 0, 0, "", ""⟩

/-- The earlier of two index records sharing the maximal timestamp. -/
def dupA : CacheIndexEntry := ⟨"a.cache", 5 * nsPerSecond, 0, none, 0, 0, "", ""⟩

/-- The later of two index records sharing the maximal timestamp. -/
def dupB : CacheIndexEntry := ⟨"b.cache", 5 * nsPerSecond, 0, none, 0, 0, "", ""⟩

/-! ### Serialization round-trip -/

/-- Decoding inverts encoding on every `CacheEntry`. -/
theorem decode_encode_cacheEntry (e : CacheEntry) :
    decodeCacheEntry (encodeCacheEntry e) = some e := by
  cases e with
  | mk t c tc tk fs sfc au wd => cases tk <;> rfl

/-! ### Helper lemmas on the eviction passes -/

instance : IsTotal CacheIndexEntry tsLE :=
  ⟨fun a b => Int.le_total a.timestamp b.timestamp⟩

instance : IsTrans CacheIndexEntry tsLE :=
  ⟨fun _ _ _ h₁ h₂ => le_trans h₁ h₂⟩

theorem mem_sortByTimestampAsc {a : CacheIndexEntry} {es : List CacheIndexEntry} :
    a ∈ sortByTimestampAsc es ↔ a ∈ es :=
  List.mem_insertionSort tsLE

theorem mem_sortByTimestampDesc {a : CacheIndexEntry} {es : List CacheIndexEntry} :
    a ∈ sortByTimestampDesc es ↔ a ∈ es :=
  List.mem_insertionSort tsGE

theorem nodup_sortByTimestampAsc {es : List CacheIndexEntry} (h : es.Nodup) :
    (sortByTimestampAsc es).Nodup :=
  ((List.perm_insertionSort tsLE es).nodup_iff).mpr h

theorem nodup_sortByTimestampDesc {es : List CacheIndexEntry} (h : es.Nodup) :
    (sortByTimestampDesc es).Nodup :=
  ((List.perm_insertionSort tsGE es).nodup_iff).mpr h

theorem mem_agePass {now : Int} {es : List CacheIndexEntry} {e : CacheIndexEntry}
    (h : e ∈ agePass now es) :
    e ∈ es ∧ now - MAX_CACHE_AGE_DAYS * nsPerDay < e.timestamp := by
  have h' := List.mem_filter.mp h
  exact ⟨h'.1, of_decide_eq_true h'.2⟩

theorem nodup_agePass {now : Int} {es : List CacheIndexEntry} (h : es.Nodup) :
    (agePass now es).Nodup :=
  (List.filter_sublist es).nodup h

theorem mem_countPass {a : CacheIndexEntry} {es : List CacheIndexEntry}
    (h : a ∈ countPass es) : a ∈ es := by
  unfold countPass at h
  split at h
  · exact mem_sortByTimestampAsc.mp (List.take_subset _ _ (mem_sortByTimestampDesc.mp h))
  · exact h

theorem nodup_countPass {es : List CacheIndexEntry} (h : es.Nodup) :
    (countPass es).Nodup := by
  unfold countPass
  split
  · exact nodup_sortByTimestampDesc
      ((List.take_sublist _ _).nodup (nodup_sortByTimestampAsc h))
  · exact h

theorem sumSizes_cons (e : CacheIndexEntry) (es : List CacheIndexEntry) :
    sumSizes (e :: es) = e.file_size + sumSizes es := by
  simp [sumSizes]

theorem sumSizes_perm {es es' : List CacheIndexEntry} (h : es.Perm es') :
    sumSizes es = sumSizes es' := by
  unfold sumSizes
  exact (h.map fun e => e.file_size).sum_eq

/-- Characterization of the size-bound removal loop started at the exact sum
of its input: the loop removes a minimal number `k` of entries from the front
such that the surviving sum is within budget (or the list is exhausted), and
records exactly the removed entries' filenames, in order. -/
theorem sizeLoopB_eq_drop (budget : Nat) :
    ∀ es : List CacheIndexEntry, ∃ k, k ≤ es.length ∧
      sizeLoopB budget (sumSizes es) es = (es.drop k, (es.take k).map (fun e => e.filename)) ∧
      (sumSizes (es.drop k) ≤ budget ∨ es.drop k = []) ∧
      (∀ j, j < k → budget < sumSizes (es.drop j)) := by
  intro es
  induction es with
  | nil =>
    refine ⟨0, Nat.le_refl _, rfl, Or.inl ?_, fun j hj => absurd hj (Nat.not_lt_zero j)⟩
    simp [sumSizes]
  | cons o rest ih =>
    by_cases h : budget < sumSizes (o :: rest)
    · obtain ⟨k, hk, heq, hb, hmin⟩ := ih
      refine ⟨k + 1, Nat.succ_le_succ hk, ?_, ?_, ?_⟩
      · show sizeLoopB budget (sumSizes (o :: rest)) (o :: rest) = _
        have hsub : sumSizes (o :: rest) - o.file_size = sumSizes rest := by
          rw [sumSizes_cons]; omega
        simp only [sizeLoopB, if_pos h, hsub, heq, List.drop_succ_cons, List.take_succ_cons,
          List.map_cons]
      · simpa using hb
      · intro j hj
        match j with
        | 0 => simpa using h
        | j' + 1 =>
          have : j' < k := Nat.lt_of_succ_lt_succ hj
          simpa using hmin j' this
    · refine ⟨0, Nat.zero_le _, ?_, Or.inl (Nat.le_of_not_lt h), fun j hj => absurd hj (Nat.not_lt_zero j)⟩
      simp only [sizeLoopB, if_neg h, List.drop_zero, List.take_zero, List.map_nil]

/-- The size pass when the budget is exceeded: it sorts ascending by
timestamp, removes a minimal oldest prefix until within budget or empty,
deletes exactly those filenames, and re-sorts the survivors descending. -/
theorem sizePassB_spec (budget : Nat) (es : List CacheIndexEntry)
    (h : budget < sumSizes es) : ∃ k, k ≤ es.length ∧
      (sizePassB budget es).1 = sortByTimestampDesc ((sortByTimestampAsc es).drop k) ∧
      (sizePassB budget es).2 = ((sortByTimestampAsc es).take k).map (fun e => e.filename) ∧
      (sumSizes ((sortByTimestampAsc es).drop k) ≤ budget ∨ (sortByTimestampAsc es).drop k = []) ∧
      (∀ j, j < k → budget < sumSizes ((sortByTimestampAsc es).drop j)) := by
  obtain ⟨k, hk, heq, hb, hmin⟩ := sizeLoopB_eq_drop budget (sortByTimestampAsc es)
  have hsum : sumSizes (sortByTimestampAsc es) = sumSizes es :=
    sumSizes_perm (List.perm_insertionSort tsLE es)
  have hlen : (sortByTimestampAsc es).length = es.length :=
    (List.perm_insertionSort tsLE es).length_eq
  have hpass : sizePassB budget es =
      (sortByTimestampDesc ((sortByTimestampAsc es).drop k),
        ((sortByTimestampAsc es).take k).map (fun e => e.filename)) := by
    simp only [sizePassB]
    rw [if_pos h, ← hsum, heq]
  refine ⟨k, hlen ▸ hk, ?_, ?_, hb, hmin⟩
  · rw [hpass]
  · rw [hpass]

theorem sizeLoopB_fst_subset (budget : Nat) :
    ∀ (total : Nat) (es : List CacheIndexEntry), (sizeLoopB budget total es).1 ⊆ es := by
  intro total es
  induction es generalizing total with
  | nil => simp [sizeLoopB]
  | cons o rest ih =>
    by_cases h : budget < total
    · simp only [sizeLoopB, if_pos h]
      exact List.Subset.trans (ih (total - o.file_size)) (List.subset_cons_self o rest)
    · simp only [sizeLoopB, if_neg h]
      exact fun a ha => ha

theorem mem_sizePassB_fst {budget : Nat} {a : CacheIndexEntry} {es : List CacheIndexEntry}
    (h : a ∈ (sizePassB budget es).1) : a ∈ es := by
  simp only [sizePassB] at h
  split at h
  · exact mem_sortByTimestampAsc.mp
      (sizeLoopB_fst_subset budget _ _ (mem_sortByTimestampDesc.mp h))
  · exact h

theorem mem_cleanupIndexOnly_fst {now : Int} {index : CacheIndex} {e : CacheIndexEntry}
    (h : e ∈ (cleanupIndexOnly now index).1) :
    e ∈ agePass now index :=
  mem_countPass (mem_sizePassB_fst h)

/-! ### Helper lemmas on the most-recent scan -/

theorem foldl_maxStep_of_lt {e : CacheIndexEntry} :
    ∀ l : List CacheIndexEntry, (∀ x ∈ l, x.timestamp < e.timestamp) →
      l.foldl maxStep (some e) = some e := by
  intro l
  induction l with
  | nil => intro _; rfl
  | cons x xs ih =>
    intro h
    have hx : ¬ e.timestamp ≤ x.timestamp :=
      not_le.mpr (h x (List.mem_cons_self x xs))
    simp only [List.foldl_cons, maxStep, if_neg hx]
    exact ih fun y hy => h y (List.mem_cons_of_mem x hy)

theorem foldl_maxStep_last {e : CacheIndexEntry} :
    ∀ (l₁ : List CacheIndexEntry) (acc : Option CacheIndexEntry),
      (∀ x ∈ l₁, x.timestamp ≤ e.timestamp) →
      (∀ l₂ : List CacheIndexEntry, (∀ x ∈ l₂, x.timestamp < e.timestamp) →
        (∀ m, acc = some m → m.timestamp ≤ e.timestamp) →
        (l₁ ++ e :: l₂).foldl maxStep acc = some e) := by
  intro l₁
  induction l₁ with
  | nil =>
    intro acc _ l₂ h₂ hacc
    have hstep : maxStep acc e = some e := by
      match acc with
      | none => rfl
      | some m => simp only [maxStep, if_pos (hacc m rfl)]
    simp only [List.nil_append, List.foldl_cons, hstep]
    exact foldl_maxStep_of_lt l₂ h₂
  | cons x xs ih =>
    intro acc h₁ l₂ h₂ hacc
    have hx : x.timestamp ≤ e.timestamp := h₁ x (List.mem_cons_self x xs)
    have hstep : ∀ m, maxStep acc x = some m → m.timestamp ≤ e.timestamp := by
      intro m hm
      match acc, hm with
      | none, hm => cases hm; exact hx
      | some m', hm =>
        by_cases hmx : m'.timestamp ≤ x.timestamp
        · simp only [maxStep, if_pos hmx] at hm; cases hm; exact hx
        · simp only [maxStep, if_neg hmx] at hm; cases hm; exact hacc _ rfl
    simp only [List.cons_append, List.foldl_cons]
    exact ih (maxStep acc x) (fun y hy => h₁ y (List.mem_cons_of_mem x hy)) l₂ h₂ hstep

/-! ### Claim theorems -/

set_option maxRecDepth 100000 in
/-- C1: the count-bound pass of `cleanup_cache` does retain exactly
`MAX_CACHE_ENTRIES` entries, but it retains the OLDEST ones, not the newest:
on 51 entries with strictly increasing timestamps (0s..50s) it keeps only
entries with timestamp at most 49s, evicting the newest (50s) entry, contrary
to the claim that truncation removes from the oldest end. -/
theorem countPass_retains_oldest_not_newest :
    (countPass fiftyOneEntries).length = MAX_CACHE_ENTRIES ∧
    (∀ e ∈ countPass fiftyOneEntries, e.timestamp ≤ 49 * nsPerSecond) ∧
    (∃ e ∈ fiftyOneEntries, e.timestamp = 50 * nsPerSecond) := by
  refine ⟨by decide, by decide, by decide⟩

set_option maxRecDepth 100000 in
/-- C6: after 51 saves with strictly increasing timestamps, the most-recent
lookup does NOT return the entry of the final save: the count-bound slip
evicted the just-saved newest entry, so the lookup returns the 50th save's
entry (timestamp 49s) instead of the 51st (timestamp 50s). -/
theorem mostRecent_after_51_saves_not_final_save :
    loadMostRecent finalState51 = Except.ok (mkCacheEntry (49 * nsPerSecond) emptySaveInput "") ∧
    mkCacheEntry (49 * nsPerSecond) emptySaveInput "" ≠
      mkCacheEntry (50 * nsPerSecond) emptySaveInput "" := by
  refine ⟨by rfl, by decide⟩

set_option maxRecDepth 100000 in
/-- C9 counterexample: after 51 saves with strictly increasing timestamps the
persisted index is sorted newest-first by the cleanup passes, which is not the
append order of the saves (ascending timestamps): the stored timestamp
sequence is 49s,48s,...,0s while the append order of those same records is
0s,1s,...,49s. -/
theorem persisted_order_differs_from_append_order :
    finalState51.index.map (fun e => e.timestamp) =
      ((List.range 50).map (fun i => ((49 - i : Nat) : Int) * nsPerSecond)) ∧
    ((List.range 50).map (fun i => ((49 - i : Nat) : Int) * nsPerSecond)) ≠
      ((List.range 50).map (fun i => (i : Int) * nsPerSecond)) := by
  refine ⟨by decide, by decide⟩

/-- C2 counterexample: an entry whose timestamp equals the retention cutoff
exactly (`now - 90 days`) is removed by the eviction pass, not retained as the
claim states: with the clock at `nowAt90Days` the cutoff is the epoch, and the
epoch-stamped entry is absent from the surviving index. -/
theorem boundary_entry_evicted :
    epochEntry.timestamp = nowAt90Days - MAX_CACHE_AGE_DAYS * nsPerDay ∧
    (cleanupCache nowAt90Days [epochEntry] ["e.cache"]).1 = [] := by
  refine ⟨by decide, by decide⟩

/-- C2 amended: after an eviction pass every surviving entry is strictly newer
than the cutoff; equivalently an entry whose timestamp is older than or equal
to the cutoff (including exactly at the boundary) is absent from the index. -/
theorem survivors_strictly_newer_than_cutoff (now : Int) (index : CacheIndex)
    (files : List String) (e : CacheIndexEntry)
    (h : e ∈ (cleanupCache now index files).1) :
    now - MAX_CACHE_AGE_DAYS * nsPerDay < e.timestamp := by
  have he : e ∈ agePass now index := mem_cleanupIndexOnly_fst h
  exact (mem_agePass he).2

/-- Witness for C2: a concrete surviving entry is strictly newer than the
cutoff. -/
theorem survivors_strictly_newer_than_cutoff_witness :
    freshEntry ∈ (cleanupCache nowAt90Days [freshEntry] ["f.cache"]).1 ∧
    nowAt90Days - MAX_CACHE_AGE_DAYS * nsPerDay < freshEntry.timestamp := by
  have h : freshEntry ∈ (cleanupCache nowAt90Days [freshEntry] ["f.cache"]).1 := by decide
  exact ⟨h, survivors_strictly_newer_than_cutoff nowAt90Days [freshEntry] ["f.cache"] freshEntry h⟩

/-- C8 counterexample: `clear` on a non-existing storage directory is not a
no-op: the directory resolver runs `create_dir_all` before the existence
check, so the call creates the directory (state `none` becomes `some []`). -/
theorem clear_on_missing_dir_not_noop :
    clearCache none = some [] ∧ some ([] : List String) ≠ none := by
  refine ⟨rfl, by decide⟩

/-- C8 amended: `clear` always succeeds and leaves an existing, empty storage
directory — also when called twice in succession, and also when the directory
did not exist beforehand (in which case it creates it rather than being a
no-op). -/
theorem clear_idempotent_leaves_empty_dir (s : Option (List String)) :
    clearCache s = some [] ∧ clearCache (clearCache s) = some [] := by
  cases s <;> exact ⟨rfl, rfl⟩

/-- Witness for C8: the amended theorem at a concrete starting state. -/
theorem clear_idempotent_leaves_empty_dir_witness :
    clearCache (some ["x.cache"]) = some [] ∧
    clearCache (clearCache (some ["x.cache"])) = some [] :=
  clear_idempotent_leaves_empty_dir (some ["x.cache"])

/-- C10: when an index contains several entries sharing the maximal timestamp,
the most-recent lookup selects the one appearing last in the stored order (the
most recently appended record) and loads that record's payload file: for an
index split as `l₁ ++ e :: l₂` where everything before `e` is no newer than
`e` and everything after `e` is strictly older, the lookup reads `e`'s file. -/
theorem mostRecent_tie_selects_last_appended (files : List (String × Json))
    (l₁ l₂ : List CacheIndexEntry) (e : CacheIndexEntry)
    (h₁ : ∀ x ∈ l₁, x.timestamp ≤ e.timestamp)
    (h₂ : ∀ x ∈ l₂, x.timestamp < e.timestamp)
    (_hshared : ∃ x ∈ l₁, x.timestamp = e.timestamp) :
    loadMostRecent ⟨files, l₁ ++ e :: l₂⟩ = loadPayload files e.filename := by
  have hmax : maxByTimestamp (l₁ ++ e :: l₂) = some e :=
    foldl_maxStep_last l₁ none h₁ l₂ h₂ (fun m hm => by cases hm)
  simp only [loadMostRecent, hmax]

/-- Witness for C10: two records share the maximal timestamp and the lookup
loads the later one's payload file. -/
theorem mostRecent_tie_selects_last_appended_witness :
    (∀ x ∈ [dupA], x.timestamp ≤ dupB.timestamp) ∧
    (∀ x ∈ ([] : List CacheIndexEntry), x.timestamp < dupB.timestamp) ∧
    (∃ x ∈ [dupA], x.timestamp = dupB.timestamp) ∧
    loadMostRecent ⟨[], [dupA] ++ dupB :: []⟩ = loadPayload [] dupB.filename := by
  refine ⟨by decide, by decide, by decide, ?_⟩
  exact mostRecent_tie_selects_last_appended [] [dupA] [] dupB (by decide) (by decide) (by decide)

/-- The sweep's keep-test is false exactly on `.cache`-suffixed names absent
from the surviving index. -/
theorem sweepKeep_eq_false_iff {survivors : List CacheIndexEntry} {f : String} :
    sweepKeep survivors f = false ↔
      endsWithStr f ".cache" = true ∧ f ∉ survivors.map (fun e => e.filename) := by
  simp only [sweepKeep, Bool.not_eq_false', Bool.and_eq_true, Bool.not_eq_true',
    List.any_eq_false, List.mem_map]
  constructor
  · rintro ⟨hend, hany⟩
    refine ⟨hend, ?_⟩
    rintro ⟨x, hx, hfx⟩
    have := hany x hx
    rw [hfx] at this
    simp at this
  · rintro ⟨hend, hnmem⟩
    refine ⟨hend, fun x hx => ?_⟩
    by_contra hbeq
    exact hnmem ⟨x, hx, beq_iff_eq.mp hbeq⟩

/-- C3: whenever the summed stored sizes exceed the byte budget, the size pass
sorts ascending by timestamp (so the front is oldest), removes a minimal
number of entries from the oldest end — deleting exactly their payload
files — until the surviving sum is within budget or nothing remains; and on
the concrete 10/20/70-byte entries under a 90-byte budget only the oldest
(10-byte) entry is removed and the surviving total is exactly 90. -/
theorem size_bound_removes_oldest_first :
    (∀ (budget : Nat) (es : List CacheIndexEntry), budget < sumSizes es →
      List.Sorted tsLE (sortByTimestampAsc es) ∧
      ∃ k, k ≤ es.length ∧
        (sizePassB budget es).1 = sortByTimestampDesc ((sortByTimestampAsc es).drop k) ∧
        (sizePassB budget es).2 = ((sortByTimestampAsc es).take k).map (fun e => e.filename) ∧
        (sumSizes ((sortByTimestampAsc es).drop k) ≤ budget ∨
          (sortByTimestampAsc es).drop k = []) ∧
        (∀ j, j < k → budget < sumSizes ((sortByTimestampAsc es).drop j))) ∧
    (sizePassB 90 threeEntries = ([entry70, entry20], ["a.cache"]) ∧
      sumSizes [entry70, entry20] = 90) := by
  refine ⟨fun budget es h => ⟨List.sorted_insertionSort tsLE es, sizePassB_spec budget es h⟩,
    by decide, by decide⟩

/-- Witness for C3: the general size-bound theorem applied to the concrete
10/20/70-byte scenario with its 90-byte budget. -/
theorem size_bound_removes_oldest_first_witness :
    90 < sumSizes threeEntries ∧
    (List.Sorted tsLE (sortByTimestampAsc threeEntries) ∧
      ∃ k, k ≤ threeEntries.length ∧
        (sizePassB 90 threeEntries).1 =
          sortByTimestampDesc ((sortByTimestampAsc threeEntries).drop k) ∧
        (sizePassB 90 threeEntries).2 =
          ((sortByTimestampAsc threeEntries).take k).map (fun e => e.filename) ∧
        (sumSizes ((sortByTimestampAsc threeEntries).drop k) ≤ 90 ∨
          (sortByTimestampAsc threeEntries).drop k = []) ∧
        (∀ j, j < k → 90 < sumSizes ((sortByTimestampAsc threeEntries).drop j))) :=
  ⟨by decide, size_bound_removes_oldest_first.1 90 threeEntries (by decide)⟩

/-- C4: the reconciliation sweep deletes a directory entry iff its name ends
in `.cache` and is absent from the surviving index; it keeps the index file
`cache_index.json` (which does not carry the suffix), every file not carrying
the suffix, and every file named by a surviving index entry. -/
theorem sweep_deletes_exactly_unindexed_cache_files
    (survivors : List CacheIndexEntry) (files : List String) (f : String) :
    (f ∈ files →
      (f ∉ sweepFiles survivors files ↔
        endsWithStr f ".cache" = true ∧ f ∉ survivors.map (fun e => e.filename))) ∧
    ("cache_index.json" ∈ files → "cache_index.json" ∈ sweepFiles survivors files) ∧
    (∀ e ∈ survivors, e.filename ∈ files → e.filename ∈ sweepFiles survivors files) := by
  refine ⟨?_, ?_, ?_⟩
  · intro hf
    constructor
    · intro hnot
      have hni : ¬ (f ∈ files ∧ sweepKeep survivors f = true) := by
        rw [← List.mem_filter]
        exact hnot
      have hk : sweepKeep survivors f = false := by
        cases hsk : sweepKeep survivors f
        · rfl
        · exact absurd ⟨hf, hsk⟩ hni
      exact sweepKeep_eq_false_iff.mp hk
    · intro hc hmem
      have hk := (List.mem_filter.mp hmem).2
      rw [sweepKeep_eq_false_iff.mpr hc] at hk
      cases hk
  · intro h
    refine List.mem_filter.mpr ⟨h, ?_⟩
    have hend : endsWithStr "cache_index.json" ".cache" = false := by decide
    simp [sweepKeep, hend]
  · intro e he hmem
    refine List.mem_filter.mpr ⟨hmem, ?_⟩
    have hany : survivors.any (fun x => x.filename == e.filename) = true :=
      List.any_eq_true.mpr ⟨e, he, by simp⟩
    simp [sweepKeep, hany]

/-- Witness for C4: the sweep theorem at a concrete directory: the orphan
`o.cache` is deleted, while `cache_index.json` and the indexed `f.cache`
survive. -/
theorem sweep_deletes_exactly_unindexed_cache_files_witness :
    ("o.cache" ∈ ["f.cache", "o.cache", "cache_index.json"] →
      ("o.cache" ∉ sweepFiles [freshEntry] ["f.cache", "o.cache", "cache_index.json"] ↔
        endsWithStr "o.cache" ".cache" = true ∧
        "o.cache" ∉ [freshEntry].map (fun e => e.filename))) ∧
    ("cache_index.json" ∈ ["f.cache", "o.cache", "cache_index.json"] →
      "cache_index.json" ∈ sweepFiles [freshEntry] ["f.cache", "o.cache", "cache_index.json"]) ∧
    (∀ e ∈ [freshEntry],
      e.filename ∈ ["f.cache", "o.cache", "cache_index.json"] →
      e.filename ∈ sweepFiles [freshEntry] ["f.cache", "o.cache", "cache_index.json"]) :=
  sweep_deletes_exactly_unindexed_cache_files [freshEntry]
    ["f.cache", "o.cache", "cache_index.json"] "o.cache"

/-- C5 counterexample: with two index records sharing one filename (as two
saves within the same second produce), every indexed filename can name an
existing file before eviction, and yet a surviving entry's file is gone
afterwards: the size pass evicts the older over-budget record and deletes the
shared file out from under the surviving newer record. -/
theorem survivor_references_deleted_file :
    (∀ e ∈ [bigEntry, smallEntryDup], e.filename ∈ ["dup.cache"]) ∧
    smallEntryDup ∈ (cleanupCache (3 * nsPerSecond) [bigEntry, smallEntryDup] ["dup.cache"]).1 ∧
    smallEntryDup.filename ∉
      (cleanupCache (3 * nsPerSecond) [bigEntry, smallEntryDup] ["dup.cache"]).2 := by
  refine ⟨by decide, by decide, by decide⟩

/-- An entry surviving the eviction bounds never has its filename among the
size pass's deletions, provided the index's filenames are pairwise distinct. -/
theorem not_mem_sizePass_deleted {now : Int} {index : CacheIndex}
    (hnd : (index.map (fun e => e.filename)).Nodup) {e : CacheIndexEntry}
    (he : e ∈ (cleanupIndexOnly now index).1) :
    e.filename ∉ (cleanupIndexOnly now index).2 := by
  have heIdx : e ∈ index := (mem_agePass (mem_cleanupIndexOnly_fst he)).1
  unfold cleanupIndexOnly at he ⊢
  set i2 := countPass (agePass now index) with hi2
  by_cases hsz : maxSizeBytes < sumSizes i2
  · obtain ⟨k, _, h1, h2, _, _⟩ := sizePassB_spec maxSizeBytes i2 hsz
    rw [h2]
    rw [h1] at he
    intro hmem
    obtain ⟨x, hx, hfx⟩ := List.mem_map.mp hmem
    have hedrop : e ∈ (sortByTimestampAsc i2).drop k := mem_sortByTimestampDesc.mp he
    have hxIdx : x ∈ index :=
      (mem_agePass (mem_countPass
        (mem_sortByTimestampAsc.mp (List.take_subset _ _ hx)))).1
    have hxe : x = e := List.inj_on_of_nodup_map hnd hxIdx heIdx hfx
    subst hxe
    have hndIdx : index.Nodup := List.Nodup.of_map _ hnd
    have hndsorted : (sortByTimestampAsc i2).Nodup :=
      nodup_sortByTimestampAsc (nodup_countPass (nodup_agePass hndIdx))
    exact List.disjoint_take_drop hndsorted (Nat.le_refl k) hx hedrop
  · have hps : sizePassB maxSizeBytes i2 = (i2, []) := by
      simp only [sizePassB]
      rw [if_neg hsz]
    rw [hps]
    simp

/-- C5 amended: when the index's filenames are pairwise distinct (no
same-second filename collision) and every indexed filename names an existing
file, every filename surviving an eviction pass references a file that exists
in the storage directory immediately after the pass. -/
theorem survivors_have_files_when_filenames_distinct (now : Int) (index : CacheIndex)
    (files : List String)
    (hnd : (index.map (fun e => e.filename)).Nodup)
    (hfiles : ∀ e ∈ index, e.filename ∈ files) :
    ∀ e ∈ (cleanupCache now index files).1,
      e.filename ∈ (cleanupCache now index files).2 := by
  intro e he
  have he' : e ∈ (cleanupIndexOnly now index).1 := he
  have heIdx : e ∈ index := (mem_agePass (mem_cleanupIndexOnly_fst he')).1
  have hnotdel : e.filename ∉ (cleanupIndexOnly now index).2 :=
    not_mem_sizePass_deleted hnd he'
  have hsweep : sweepKeep (cleanupIndexOnly now index).1 e.filename = true := by
    have hany : (cleanupIndexOnly now index).1.any (fun x => x.filename == e.filename) = true :=
      List.any_eq_true.mpr ⟨e, he', by simp⟩
    simp [sweepKeep, hany]
  have hkeep : keepFile (cleanupIndexOnly now index).1 (cleanupIndexOnly now index).2
      e.filename = true := by
    simp only [keepFile, Bool.and_eq_true, Bool.not_eq_true']
    refine ⟨?_, hsweep⟩
    simpa using hnotdel
  exact List.mem_filter.mpr ⟨hfiles e heIdx, hkeep⟩

/-- Witness for C5: the amended invariant at a concrete collision-free state. -/
theorem survivors_have_files_when_filenames_distinct_witness :
    ([freshEntry].map (fun e => e.filename)).Nodup ∧
    (∀ e ∈ [freshEntry], e.filename ∈ ["f.cache"]) ∧
    (∀ e ∈ (cleanupCache nowAt90Days [freshEntry] ["f.cache"]).1,
      e.filename ∈ (cleanupCache nowAt90Days [freshEntry] ["f.cache"]).2) :=
  ⟨by decide, by decide,
    survivors_have_files_when_filenames_distinct nowAt90Days [freshEntry] ["f.cache"]
      (by decide) (by decide)⟩

/-- C7: saving an entry and loading it back by its filename returns a
`CacheEntry` whose `content`, `token_count` and `source_file_count` equal the
values passed to save — serialization followed by deserialization is the
identity on these fields.  (The hypothesis records that the file is still
present after the save's eviction pass, i.e. that loading it by filename can
succeed at all.) -/
theorem save_then_load_roundtrip (now : Int) (input : SaveInput) (wd : String)
    (st : CacheState)
    (hsur : filenameFor now ∈ (saveToCache now input wd st).files.map Prod.fst) :
    loadPayload (saveToCache now input wd st).files (filenameFor now) =
      Except.ok (mkCacheEntry now input wd) ∧
    (mkCacheEntry now input wd).content = input.content ∧
    (mkCacheEntry now input wd).token_count = input.token_count ∧
    (mkCacheEntry now input wd).source_file_count = input.source_file_count := by
  refine ⟨?_, rfl, rfl, rfl⟩
  have hfiles : (saveToCache now input wd st).files =
      ((filenameFor now, encodeCacheEntry (mkCacheEntry now input wd)) ::
          st.files.filter (fun kv => kv.1 != filenameFor now)).filter
        (fun kv =>
          keepFile
            (cleanupIndexOnly now
              (updateCacheIndex st.index (mkCacheEntry now input wd) (filenameFor now))).1
            (cleanupIndexOnly now
              (updateCacheIndex st.index (mkCacheEntry now input wd) (filenameFor now))).2
            kv.1) := rfl
  rw [hfiles] at hsur ⊢
  cases hp : keepFile
      (cleanupIndexOnly now
        (updateCacheIndex st.index (mkCacheEntry now input wd) (filenameFor now))).1
      (cleanupIndexOnly now
        (updateCacheIndex st.index (mkCacheEntry now input wd) (filenameFor now))).2
      (filenameFor now) with
  | false =>
    exfalso
    rw [List.filter_cons_of_neg (by simpa using hp)] at hsur
    obtain ⟨kv, hkv, hfst⟩ := List.mem_map.mp hsur
    have hkv' : kv ∈ st.files.filter (fun kv => kv.1 != filenameFor now) :=
      List.mem_of_mem_filter hkv
    have hne : (kv.1 != filenameFor now) = true := (List.mem_filter.mp hkv').2
    rw [hfst] at hne
    simp at hne
  | true =>
    rw [List.filter_cons_of_pos (by simpa using hp)]
    simp only [loadPayload, List.lookup, beq_self_eq_true, Option.some_bind,
      decode_encode_cacheEntry]

/-- Witness for C7: a concrete save on an empty cache, loaded back by its
filename. -/
theorem save_then_load_roundtrip_witness :
    filenameFor 0 ∈ (saveToCache 0 emptySaveInput "" ⟨[], []⟩).files.map Prod.fst ∧
    (loadPayload (saveToCache 0 emptySaveInput "" ⟨[], []⟩).files (filenameFor 0) =
      Except.ok (mkCacheEntry 0 emptySaveInput "") ∧
     (mkCacheEntry 0 emptySaveInput "").content = emptySaveInput.content ∧
     (mkCacheEntry 0 emptySaveInput "").token_count = emptySaveInput.token_count ∧
     (mkCacheEntry 0 emptySaveInput "").source_file_count =
       emptySaveInput.source_file_count) := by
  have h : filenameFor 0 ∈ (saveToCache 0 emptySaveInput "" ⟨[], []⟩).files.map Prod.fst := by
    decide
  exact ⟨h, save_then_load_roundtrip 0 emptySaveInput "" ⟨[], []⟩ h⟩

/-- C9 amended: each save appends its lightweight record at the end of the
persisted index, and the persisted order is exactly the append order as long
as no eviction bound triggers (no entry beyond the age cutoff, at most
`MAX_CACHE_ENTRIES` entries, total size within budget); when a count or size
bound does trigger, cleanup re-sorts the persisted index newest-first (see the
counterexample). -/
theorem save_appends_when_no_bound_triggers (now : Int) (input : SaveInput)
    (wd : String) (st : CacheState)
    (hage : ∀ e ∈ updateCacheIndex st.index (mkCacheEntry now input wd) (filenameFor now),
      now - MAX_CACHE_AGE_DAYS * nsPerDay < e.timestamp)
    (hcount : (updateCacheIndex st.index (mkCacheEntry now input wd)
      (filenameFor now)).length ≤ MAX_CACHE_ENTRIES)
    (hsize : sumSizes (updateCacheIndex st.index (mkCacheEntry now input wd)
      (filenameFor now)) ≤ maxSizeBytes) :
    (saveToCache now input wd st).index =
      st.index ++ [toIndexEntry (mkCacheEntry now input wd) (filenameFor now)] := by
  have h1 : agePass now (updateCacheIndex st.index (mkCacheEntry now input wd)
      (filenameFor now)) =
      updateCacheIndex st.index (mkCacheEntry now input wd) (filenameFor now) :=
    List.filter_eq_self.mpr (fun e he => decide_eq_true (hage e he))
  have h2 : countPass (updateCacheIndex st.index (mkCacheEntry now input wd)
      (filenameFor now)) =
      updateCacheIndex st.index (mkCacheEntry now input wd) (filenameFor now) := by
    unfold countPass
    rw [if_neg (not_lt.mpr hcount)]
  have h3 : sizePassB maxSizeBytes (updateCacheIndex st.index (mkCacheEntry now input wd)
      (filenameFor now)) =
      (updateCacheIndex st.index (mkCacheEntry now input wd) (filenameFor now), []) := by
    simp only [sizePassB]
    rw [if_neg (not_lt.mpr hsize)]
  show (cleanupIndexOnly now (updateCacheIndex st.index (mkCacheEntry now input wd)
    (filenameFor now))).1 = _
  simp only [cleanupIndexOnly]
  rw [h1, h2, h3]
  rfl

/-- Witness for C9: a single save on an empty cache appends its record and no
bound triggers. -/
theorem save_appends_when_no_bound_triggers_witness :
    (∀ e ∈ updateCacheIndex ([] : CacheIndex) (mkCacheEntry nsPerSecond emptySaveInput "")
        (filenameFor nsPerSecond),
      nsPerSecond - MAX_CACHE_AGE_DAYS * nsPerDay < e.timestamp) ∧
    (updateCacheIndex ([] : CacheIndex) (mkCacheEntry nsPerSecond emptySaveInput "")
      (filenameFor nsPerSecond)).length ≤ MAX_CACHE_ENTRIES ∧
    sumSizes (updateCacheIndex ([] : CacheIndex) (mkCacheEntry nsPerSecond emptySaveInput "")
      (filenameFor nsPerSecond)) ≤ maxSizeBytes ∧
    (saveToCache nsPerSecond emptySaveInput "" ⟨[], []⟩).index =
      [] ++ [toIndexEntry (mkCacheEntry nsPerSecond emptySaveInput "")
        (filenameFor nsPerSecond)] :=
  ⟨by decide, by decide, by decide,
    save_appends_when_no_bound_triggers nsPerSecond emptySaveInput "" ⟨[], []⟩
      (by decide) (by decide) (by decide)⟩

end Xhinobi
